import Mathlib

/-!
Verification of the wahala-pin-scanner repository.

The repository contains two scanner variants:
  * `src/pin_scanner.py`      (the "scanner variant"): module-level constants,
    `get_already_found_pins`, `get_exam_summary`, `scan_pins`.
  * `src/pin_scanner_vip.py`  (the "refactored variant"): `PinScannerConfig`,
    `PinScanner._load_processed_pins`, `PinScanner._check_pin`, `PinScanner.run`, `main`.

This file is a shallow embedding of both variants.  Strings are modelled by
`String` (lists of characters), machine integers by `Nat`, the filesystem by
explicit record states, the network by an oracle `String → Resp` mapping each
candidate PIN to the transport outcome of its HTTP POST, and the out-of-scope
HTML content extractor (`get_exam_summary` / `_extract_content`) by an opaque
collaborator parameter `String → String`, exactly as the design document
declares it an external collaborator.
-/

/-- Python `\s` on ASCII text: the whitespace class `[ \t\n\r\x0b\x0c]`
used by the resume-set regex `PIN:\s*(\d+)`. -/
def pyIsSpace (c : Char) : Bool :=
  c == ' ' || c == '\t' || c == '\n' || c == '\r' || c == '\x0b' || c == '\x0c'

/-- Python's substring operator `n in h` on character lists: `n` occurs
contiguously inside `h`. -/
def subLi (n : List Char) : List Char → Bool
  | [] => n.isEmpty
  | c :: t => n.isPrefixOf (c :: t) || subLi n t

/-- Python `needle in hay` for strings. -/
def strIn (needle hay : String) : Bool :=
  subLi needle.data hay.data

/-- Python `str.lower()` restricted to ASCII letters (the only letters the
configured indicators contain): lower-case every character. -/
def lowerStr (s : String) : String :=
  ⟨s.data.map Char.toLower⟩

/-- The three-way classification of a response body used by both variants
(`scan_pins` lines 140-169 of `src/pin_scanner.py` and `_check_pin`
lines 159-171 of `src/pin_scanner_vip.py`). -/
inductive Outcome where
  | matched
  | potential
  | rejected
deriving DecidableEq, Repr

/-- The classification decision of both variants, translated from
`if SPECIAL_INDICATOR_TEXT in response_text: ...
elif FAILURE_INDICATOR_TEXT.lower() not in response_text.lower(): ...
else: ...` (`src/pin_scanner.py` lines 140-169; identically
`src/pin_scanner_vip.py` lines 159-171 with the configured indicators). -/
def classify (succ fail text : String) : Outcome :=
  if strIn succ text then .matched
  else if !strIn (lowerStr fail) (lowerStr text) then .potential
  else .rejected

/-- One attempted match of the regex `PIN:\s*(\d+)` at the head of the
character list: the literal `PIN:`, then a greedy run of whitespace, then a
greedy nonempty run of digits (the capture).  Returns the capture and the
remaining characters after the match, or `none` when the regex does not
match at this position. -/
def tryMatch (l : List Char) : Option (String × List Char) :=
  match l with
  | a :: b :: c :: d :: rest =>
    if a = 'P' ∧ b = 'I' ∧ c = 'N' ∧ d = ':' then
      let digs := (rest.dropWhile pyIsSpace).takeWhile Char.isDigit
      if digs = [] then none
      else some (⟨digs⟩, (rest.dropWhile pyIsSpace).dropWhile Char.isDigit)
    else none
  | _ => none

theorem tryMatch_some_length {l : List Char} {cap : String} {rest : List Char}
    (h : tryMatch l = some (cap, rest)) : rest.length < l.length := by
  rcases l with _ | ⟨a, _ | ⟨b, _ | ⟨c, _ | ⟨d, r⟩⟩⟩⟩ <;> simp [tryMatch] at h
  have h1 : (r.dropWhile pyIsSpace).length ≤ r.length :=
    (List.dropWhile_sublist pyIsSpace).length_le
  have h2 : ((r.dropWhile pyIsSpace).dropWhile Char.isDigit).length ≤
      (r.dropWhile pyIsSpace).length := (List.dropWhile_sublist Char.isDigit).length_le
  have hrest := h.2.2.2
  subst hrest
  simp only [List.length_cons]
  omega

/-- Fuel-driven worker for the left-to-right regex scan; the fuel only
bounds the recursion depth and is irrelevant once it is at least the
length of the input (`pinGo_congr`). -/
def pinGo : Nat → List Char → List String
  | 0, _ => []
  | fuel + 1, l =>
    match tryMatch l with
    | some (cap, rest) => cap :: pinGo fuel rest
    | none =>
      match l with
      | [] => []
      | _ :: t => pinGo fuel t

theorem pinGo_congr : ∀ (f₁ f₂ : Nat) (l : List Char),
    l.length ≤ f₁ → l.length ≤ f₂ → pinGo f₁ l = pinGo f₂ l := by
  intro f₁
  induction f₁ using Nat.strong_induction_on with
  | _ f₁ ih =>
    intro f₂ l h₁ h₂
    cases l with
    | nil => cases f₁ <;> cases f₂ <;> rfl
    | cons x t =>
      cases f₁ with
      | zero => simp at h₁
      | succ f₁ =>
        cases f₂ with
        | zero => simp at h₂
        | succ f₂ =>
          simp only [pinGo]
          cases hm : tryMatch (x :: t) with
          | some cr =>
            obtain ⟨cap, rest⟩ := cr
            have hlt := tryMatch_some_length hm
            simp only [List.length_cons] at h₁ h₂ hlt
            show cap :: pinGo f₁ rest = cap :: pinGo f₂ rest
            exact congrArg _ (ih f₁ (by omega) f₂ rest (by omega) (by omega))
          | none =>
            simp only [List.length_cons] at h₁ h₂
            show pinGo f₁ t = pinGo f₂ t
            exact ih f₁ (by omega) f₂ t (by omega) (by omega)

/-- Python `re.findall(r"PIN:\s*(\d+)", content)` over a character list:
scan left to right; at each position emit the capture of a match if one
starts there and resume after it, otherwise advance one character.
(`src/pin_scanner.py` line 61, `src/pin_scanner_vip.py` line 67.) -/
def pinFindAll (l : List Char) : List String :=
  pinGo l.length l

/-- The natural recursion equation for `pinFindAll`. -/
theorem pinFindAll_eq (l : List Char) :
    pinFindAll l =
      match tryMatch l with
      | some (cap, rest) => cap :: pinFindAll rest
      | none =>
        match l with
        | [] => []
        | _ :: t => pinFindAll t := by
  cases l with
  | nil => rfl
  | cons x t =>
    show pinGo (t.length + 1) (x :: t) = _
    simp only [pinGo]
    cases hm : tryMatch (x :: t) with
    | some cr =>
      obtain ⟨cap, rest⟩ := cr
      have hlt := tryMatch_some_length hm
      simp only [List.length_cons] at hlt
      show cap :: pinGo t.length rest = cap :: pinFindAll rest
      exact congrArg _ (pinGo_congr _ _ _ (by omega) (by omega))
    | none =>
      show pinGo t.length t = pinFindAll t
      exact pinGo_congr _ _ _ (by omega) (by omega)

/-- The state of the found-log file as seen by the resume-set loader:
missing, present but unreadable (an `IOError` on read), or readable with
the given full content. -/
inductive FoundState where
  | missing
  | unreadable
  | content (s : String)
deriving DecidableEq

/-- The shared resume-set loading logic of `get_already_found_pins`
(`src/pin_scanner.py` lines 52-66) and `PinScanner._load_processed_pins`
(`src/pin_scanner_vip.py` lines 54-74): missing file yields the empty set;
a read failure is caught, a warning logged, and the empty set returned;
otherwise all captures of `PIN:\s*(\d+)` over the whole content.
The result list is read as a set (membership only). -/
def loadResume : FoundState → List String
  | .missing => []
  | .unreadable => []
  | .content s => pinFindAll s.data

/-- The filesystem as seen by the scanner variant (`src/pin_scanner.py`):
the CI scratch file `new_find_content.txt` (`none` when absent), the
found-log `found_pins.log` and the potential log `potential_pins.log`. -/
structure ScannerFs where
  ciFile : Option String
  foundLog : FoundState
  silentLog : Option String
deriving DecidableEq

/-- Function `get_already_found_pins` (`src/pin_scanner.py` lines 43-66): if the CI
scratch file exists it is removed; then the resume set is parsed from the
found-log.  Returns the resume set together with the filesystem after the
call. -/
def getAlreadyFoundPins (fs : ScannerFs) : List String × ScannerFs :=
  let fs1 := if fs.ciFile.isSome then { fs with ciFile := none } else fs
  (loadResume fs.foundLog, fs1)

/-- Transport outcome of the HTTP POST for one candidate: a raised
`requests.exceptions.RequestException` (timeout, connection error), or a
response with its status code and body text. -/
inductive Resp where
  | netError
  | ok (status : Nat) (text : String)
deriving DecidableEq

/-- Observable effects of handling one candidate in the scanner variant
(`scan_pins` loop body, `src/pin_scanner.py` lines 116-173). -/
structure StepOut where
  probed : Bool
  found : List String
  ci : List String
  silent : List String
  matchCount : Nat
  sleeps : List Nat
deriving DecidableEq

/-- Handling of a completed POST in the scanner variant
(`src/pin_scanner.py` lines 132-173).  The status code is never inspected;
the body text is classified with the module constants
`SPECIAL_INDICATOR_TEXT = "2025"` and `FAILURE_INDICATOR_TEXT = "invalid pin"`.
On a match the found-log gains `PIN: <pin>\n\n` and the CI scratch file
gains the full content block; on a potential the found-log gains
`PIN: <pin>\n\n` (the code prints that it logs to `potential_pins.log` but
writes to `LOG_FILE`); on a rejection nothing is written.  A network error
sleeps 10 seconds. -/
def scanRespCase (ex : String → String) (pin : String) : Resp → StepOut
  | .netError => ⟨true, [], [], [], 0, [10]⟩
  | .ok _ text =>
    match classify "2025" "invalid pin" text with
    | .matched =>
      ⟨true, ["PIN: " ++ pin ++ "\n\n"],
        ["PIN: " ++ pin ++ "\n\n" ++ ex text ++ "\n\n---\n\n"], [], 1, []⟩
    | .potential => ⟨true, ["PIN: " ++ pin ++ "\n\n"], [], [], 0, []⟩
    | .rejected => ⟨true, [], [], [], 0, []⟩

/-- One loop iteration of `scan_pins` (`src/pin_scanner.py` lines 116-173):
skip (without a POST and without any write) when the candidate is in the
resume set, otherwise POST and handle the response. -/
def scanStep (resume : List String) (tr : String → Resp) (ex : String → String)
    (pin : String) : StepOut :=
  if pin ∈ resume then ⟨false, [], [], [], 0, []⟩
  else scanRespCase ex pin (tr pin)

/-- Accumulated observable effects of a scanner-variant run. -/
structure RunOut where
  probes : List String
  found : List String
  ci : List String
  silent : List String
  matchCount : Nat
  sleeps : List Nat
deriving DecidableEq

/-- The scanner-variant sweep over a list of candidate strings,
concatenating the per-candidate effects in order. -/
def runScannerList (resume : List String) (tr : String → Resp)
    (ex : String → String) : List String → RunOut
  | [] => ⟨[], [], [], [], 0, []⟩
  | c :: cs =>
    let s := scanStep resume tr ex c
    let r := runScannerList resume tr ex cs
    ⟨(if s.probed then [c] else []) ++ r.probes, s.found ++ r.found,
      s.ci ++ r.ci, s.silent ++ r.silent, s.matchCount + r.matchCount,
      s.sleeps ++ r.sleeps⟩

/-- Python `range(start, end_pin + 1)` over naturals. -/
def pyRange (start endPin : Nat) : List Nat :=
  List.range' start (endPin + 1 - start)

/-- The candidate strings `str(pin_number)` of the sweep, in order. -/
def pyCandidates (start endPin : Nat) : List String :=
  (pyRange start endPin).map toString

/-- The file content produced by a sequence of append writes to an
initially absent file. -/
def fileContent (appends : List String) : String :=
  ⟨(appends.map String.data).flatten⟩

/-- Result of one invocation of `scan_pins`: either the final summary and
the CI content size were printed and the process exits normally, or the
final unguarded `open(CI_OUTPUT_FILE, "r")` (`src/pin_scanner.py`
line 178) raised `FileNotFoundError` because no match was found in this
run (so the file deleted at startup was never re-created) and the process
dies with a traceback. -/
inductive ProgResult where
  | completed (matchCount : Nat) (ciSize : Nat)
  | crashedMissingCi (matchCount : Nat)
deriving DecidableEq

/-- The whole `scan_pins` invocation (`src/pin_scanner.py` lines 102-182):
load the resume set (deleting the CI scratch file), sweep the range, print
the summary, then read the CI scratch file back. -/
def scanPins (fs : ScannerFs) (tr : String → Resp) (ex : String → String)
    (start endPin : Nat) : ProgResult :=
  let resume := (getAlreadyFoundPins fs).1
  let r := runScannerList resume tr ex (pyCandidates start endPin)
  match r.ci with
  | [] => .crashedMissingCi r.matchCount
  | _ => .completed r.matchCount (fileContent r.ci).length

/-- Observable effects of `PinScanner._check_pin`
(`src/pin_scanner_vip.py` lines 126-176): `warnings` and `errors` count
`logging.warning` and `logging.error` calls. -/
structure VStepOut where
  probed : Bool
  found : List String
  ci : List String
  potential : List String
  matchCount : Nat
  sleeps : List Nat
  warnings : Nat
  errors : Nat
deriving DecidableEq

/-- Handling of a completed POST in the refactored variant
(`src/pin_scanner_vip.py` lines 148-171): a non-200 status logs a warning
and persists nothing, with an extra warning and a 60 second sleep for
status 429, 503 or 504; a 200 response is classified with the configured
indicators: a match appends the `--- NEW FIND ---` block to the found-log
and the content block to the CI file, a potential appends the bare
candidate plus newline to the potential log, a rejection writes nothing. -/
def vipRespCase (ex : String → String) (succ fail pin : String) : Resp → VStepOut
  | .netError => ⟨true, [], [], [], 0, [10], 0, 1⟩
  | .ok status text =>
    if status ≠ 200 then
      if status = 429 ∨ status = 503 ∨ status = 504 then
        ⟨true, [], [], [], 0, [60], 2, 0⟩
      else
        ⟨true, [], [], [], 0, [], 1, 0⟩
    else
      match classify succ fail text with
      | .matched =>
        ⟨true,
          ["--- NEW FIND ---\n" ++ ("PIN: " ++ pin ++ "\n\n" ++ ex text) ++
            "\n" ++ "------------------------------" ++ "\n\n"],
          ["PIN: " ++ pin ++ "\n\n" ++ ex text ++ "\n\n---\n\n"],
          [], 1, [], 0, 0⟩
      | .potential => ⟨true, [], [], [pin ++ "\n"], 0, [], 0, 0⟩
      | .rejected => ⟨true, [], [], [], 0, [], 0, 0⟩

/-- Method `PinScanner._check_pin` (`src/pin_scanner_vip.py` lines 126-176):
return immediately for a candidate in the processed set, otherwise POST
and handle the response; a transport error logs an error and sleeps 10
seconds. -/
def checkPinVip (resume : List String) (tr : String → Resp)
    (ex : String → String) (succ fail pin : String) : VStepOut :=
  if pin ∈ resume then ⟨false, [], [], [], 0, [], 0, 0⟩
  else vipRespCase ex succ fail pin (tr pin)

/-- Accumulated observable effects of a refactored-variant run; `delays`
counts the unconditional `time.sleep(self.config.delay)` calls of the
`run` loop (`src/pin_scanner_vip.py` line 191). -/
structure VRunOut where
  probes : List String
  found : List String
  ci : List String
  potential : List String
  matchCount : Nat
  sleeps : List Nat
  warnings : Nat
  errors : Nat
  delays : Nat
deriving DecidableEq

/-- The refactored-variant sweep (`PinScanner.run` loop,
`src/pin_scanner_vip.py` lines 188-191): check each candidate, then sleep
the inter-request delay unconditionally. -/
def runVipList (resume : List String) (tr : String → Resp)
    (ex : String → String) (succ fail : String) : List String → VRunOut
  | [] => ⟨[], [], [], [], 0, [], 0, 0, 0⟩
  | c :: cs =>
    let s := checkPinVip resume tr ex succ fail c
    let r := runVipList resume tr ex succ fail cs
    ⟨(if s.probed then [c] else []) ++ r.probes, s.found ++ r.found,
      s.ci ++ r.ci, s.potential ++ r.potential, s.matchCount + r.matchCount,
      s.sleeps ++ r.sleeps, s.warnings + r.warnings, s.errors + r.errors,
      1 + r.delays⟩

/-- Method `PinScanner.run` over the configured range. -/
def runVip (resume : List String) (tr : String → Resp) (ex : String → String)
    (succ fail : String) (start endPin : Nat) : VRunOut :=
  runVipList resume tr ex succ fail (pyCandidates start endPin)

/-- Result of the refactored variant's `main`: the inductive distinguishes
a fatal configuration rejection at startup from a completed run, so that
startup behavior can be stated.  `main` (`src/pin_scanner_vip.py` lines
199-240) parses the arguments, builds the config and runs the scanner; it
performs no validation of the range or of the URL. -/
inductive VipOutcome where
  | fatalConfig
  | done (r : VRunOut)
deriving DecidableEq

/-- Function `main` of `src/pin_scanner_vip.py`: construct the scanner (loading the
processed set from the found-log) and run it over the range.  No
configuration check exists, so no input reaches `fatalConfig`. -/
def mainVip (foundLog : FoundState) (tr : String → Resp)
    (ex : String → String) (succ fail : String) (start endPin : Nat) :
    VipOutcome :=
  .done (runVip (loadResume foundLog) tr ex succ fail start endPin)

/-! ### Decimal rendering of naturals

Python's `str(pin_number)` corresponds to Lean's `toString : Nat → String`
(`Nat.repr`).  The lemmas below characterise its characters and prove it
injective, via a clean structural reformulation `natChars`. -/

/-- The decimal digits of `n`, most significant first. -/
def natChars (n : Nat) : List Char :=
  if h : n < 10 then [Nat.digitChar n]
  else natChars (n / 10) ++ [Nat.digitChar (n % 10)]
termination_by n
decreasing_by
  exact Nat.div_lt_self (by omega) (by omega)

theorem toDigitsCore_eq_natChars : ∀ (fuel n : Nat) (ds : List Char),
    n < fuel → Nat.toDigitsCore 10 fuel n ds = natChars n ++ ds := by
  intro fuel
  induction fuel with
  | zero => intro n ds h; omega
  | succ fuel ih =>
    intro n ds h
    rw [Nat.toDigitsCore]
    show (if n / 10 = 0 then Nat.digitChar (n % 10) :: ds
        else Nat.toDigitsCore 10 fuel (n / 10) (Nat.digitChar (n % 10) :: ds)) =
      natChars n ++ ds
    by_cases h10 : n < 10
    · have hz : n / 10 = 0 := Nat.div_eq_of_lt h10
      rw [if_pos hz, natChars, dif_pos h10, Nat.mod_eq_of_lt h10]
      rfl
    · have hz : ¬ n / 10 = 0 := by
        intro hc
        have := Nat.div_add_mod n 10
        have hm : n % 10 < 10 := Nat.mod_lt _ (by omega)
        omega
      rw [if_neg hz, ih _ _ (by
        have := Nat.div_lt_self (n := n) (by omega) (by omega : (1:Nat) < 10)
        omega)]
      conv_rhs => rw [natChars]
      rw [dif_neg h10]
      simp

theorem toString_nat_data (n : Nat) : (toString n).data = natChars n := by
  show (Nat.repr n).data = natChars n
  unfold Nat.repr Nat.toDigits
  show (List.asString (Nat.toDigitsCore 10 (n + 1) n [])).data = natChars n
  rw [toDigitsCore_eq_natChars _ _ _ (Nat.lt_succ_self n)]
  simp [List.asString]

theorem digitChar_isDigit {k : Nat} (h : k < 10) :
    (Nat.digitChar k).isDigit = true := by
  interval_cases k <;> decide

theorem digitChar_toNat {k : Nat} (h : k < 10) :
    (Nat.digitChar k).toNat = 48 + k := by
  interval_cases k <;> decide

theorem natChars_digits : ∀ (n : Nat), ∀ c ∈ natChars n, c.isDigit = true := by
  intro n
  induction n using Nat.strong_induction_on with
  | _ n ih =>
    intro c hc
    rw [natChars] at hc
    by_cases h10 : n < 10
    · rw [dif_pos h10] at hc
      simp at hc
      exact hc ▸ digitChar_isDigit h10
    · rw [dif_neg h10] at hc
      rcases List.mem_append.1 hc with h | h
      · exact ih (n / 10) (Nat.div_lt_self (by omega) (by omega)) c h
      · simp at h
        exact h ▸ digitChar_isDigit (Nat.mod_lt _ (by omega))

theorem natChars_ne_nil (n : Nat) : natChars n ≠ [] := by
  rw [natChars]
  by_cases h10 : n < 10
  · rw [dif_pos h10]; simp
  · rw [dif_neg h10]; simp

/-- Base-10 value of a digit string, used only to invert `natChars`. -/
def charsVal (l : List Char) : Nat :=
  l.foldl (fun a c => 10 * a + (c.toNat - 48)) 0

theorem charsVal_natChars : ∀ n : Nat, charsVal (natChars n) = n := by
  intro n
  induction n using Nat.strong_induction_on with
  | _ n ih =>
    rw [natChars]
    by_cases h10 : n < 10
    · rw [dif_pos h10]
      show 10 * 0 + ((Nat.digitChar n).toNat - 48) = n
      rw [digitChar_toNat h10]
      omega
    · rw [dif_neg h10]
      show List.foldl _ 0 (natChars (n / 10) ++ [Nat.digitChar (n % 10)]) = n
      rw [List.foldl_append]
      have hv : List.foldl (fun a c => 10 * a + (c.toNat - 48)) 0 (natChars (n / 10)) = n / 10 :=
        ih (n / 10) (Nat.div_lt_self (by omega) (by omega))
      rw [hv]
      show 10 * (n / 10) + ((Nat.digitChar (n % 10)).toNat - 48) = n
      rw [digitChar_toNat (Nat.mod_lt _ (by omega))]
      have := Nat.div_add_mod n 10
      omega

theorem natStr_inj {m n : Nat} (h : toString m = toString n) : m = n := by
  have hd : natChars m = natChars n := by
    rw [← toString_nat_data, ← toString_nat_data, h]
  have := charsVal_natChars m
  rw [hd, charsVal_natChars] at this
  omega

theorem toString_nat_digits (n : Nat) : ∀ c ∈ (toString n).data, c.isDigit = true := by
  rw [toString_nat_data]; exact natChars_digits n

theorem toString_nat_ne_nil (n : Nat) : (toString n).data ≠ [] := by
  rw [toString_nat_data]; exact natChars_ne_nil n

/-! ### Character-class facts and regex-match helper lemmas -/

theorem head?_dropWhile {q : Char → Bool} {l : List Char} {c : Char}
    (h : (l.dropWhile q).head? = some c) : q c = false := by
  have := List.head?_dropWhile_not q l
  rw [h] at this
  exact this

theorem pyIsSpace_cases {c : Char} (h : pyIsSpace c = true) :
    c = ' ' ∨ c = '\t' ∨ c = '\n' ∨ c = '\r' ∨ c = '\x0b' ∨ c = '\x0c' := by
  simp [pyIsSpace] at h
  tauto

theorem space_not_digit {c : Char} (h : pyIsSpace c = true) : c.isDigit = false := by
  rcases pyIsSpace_cases h with h | h | h | h | h | h <;> subst h <;> decide

theorem space_ne_P {c : Char} (h : pyIsSpace c = true) : c ≠ 'P' := by
  rcases pyIsSpace_cases h with h | h | h | h | h | h <;> subst h <;> decide

theorem digit_not_space {c : Char} (h : c.isDigit = true) : pyIsSpace c = false := by
  cases hs : pyIsSpace c with
  | false => rfl
  | true => rw [space_not_digit hs] at h; exact absurd h (by decide)

theorem digit_ne_P {c : Char} (h : c.isDigit = true) : c ≠ 'P' := by
  intro he
  subst he
  exact absurd h (by decide)

/-- When the pattern matches at the head of `l`, the match decomposes `l`
into the literal, a whitespace run, a nonempty digit run (the capture) and
a remainder that does not start with a digit. -/
theorem tryMatch_some_spec {l : List Char} {cap : String} {rest : List Char}
    (h : tryMatch l = some (cap, rest)) :
    ∃ ws digs, l = 'P' :: 'I' :: 'N' :: ':' :: (ws ++ digs ++ rest) ∧
      (∀ c ∈ ws, pyIsSpace c = true) ∧ digs ≠ [] ∧
      (∀ c ∈ digs, c.isDigit = true) ∧ cap = ⟨digs⟩ ∧
      (∀ c, rest.head? = some c → c.isDigit = false) := by
  rcases l with _ | ⟨a, _ | ⟨b, _ | ⟨c, _ | ⟨d, r⟩⟩⟩⟩ <;> simp [tryMatch] at h
  obtain ⟨⟨ha, hb, hc, hd⟩, hne, hcap, hrest⟩ := h
  subst ha; subst hb; subst hc; subst hd
  refine ⟨r.takeWhile pyIsSpace, (r.dropWhile pyIsSpace).takeWhile Char.isDigit,
    ?_, ?_, ?_, ?_, ?_, ?_⟩
  · subst hrest
    rw [List.append_assoc, List.takeWhile_append_dropWhile,
      List.takeWhile_append_dropWhile]
  · intro c hc
    exact List.mem_takeWhile_imp hc
  · obtain ⟨hpos, hdig⟩ := hne
    intro hnil
    cases hl : List.dropWhile pyIsSpace r with
    | nil => rw [hl] at hpos; simp at hpos
    | cons c t =>
      simp only [hl, List.getElem_cons_zero] at hdig
      rw [hl, List.takeWhile_cons_of_pos hdig] at hnil
      exact List.noConfusion hnil
  · intro c hc
    exact List.mem_takeWhile_imp hc
  · exact hcap.symm
  · intro c hc
    subst hrest
    exact head?_dropWhile hc

theorem takeWhile_eval {q : Char → Bool} {xs ys : List Char}
    (hx : ∀ a ∈ xs, q a = true) (hy : ∀ c, ys.head? = some c → q c = false) :
    (xs ++ ys).takeWhile q = xs := by
  rw [List.takeWhile_append_of_pos hx]
  cases ys with
  | nil => simp
  | cons c t =>
    rw [List.takeWhile_cons_of_neg]
    · simp
    · rw [hy c rfl]
      simp

theorem dropWhile_eval {q : Char → Bool} {xs ys : List Char}
    (hx : ∀ a ∈ xs, q a = true) (hy : ∀ c, ys.head? = some c → q c = false) :
    (xs ++ ys).dropWhile q = ys := by
  rw [List.dropWhile_append_of_pos hx]
  cases ys with
  | nil => simp
  | cons c t =>
    rw [List.dropWhile_cons_of_neg]
    rw [hy c rfl]
    simp

/-- Conversely, whenever the pattern shape is present at the head of the
list the head match succeeds and captures exactly the digit run. -/
theorem tryMatch_complete {ws p post : List Char}
    (hws : ∀ c ∈ ws, pyIsSpace c = true) (hp : p ≠ [])
    (hd : ∀ c ∈ p, c.isDigit = true)
    (hpost : ∀ c, post.head? = some c → c.isDigit = false) :
    tryMatch ('P' :: 'I' :: 'N' :: ':' :: (ws ++ p ++ post)) = some (⟨p⟩, post) := by
  have hdw : (ws ++ p ++ post).dropWhile pyIsSpace = p ++ post := by
    rw [List.append_assoc]
    refine dropWhile_eval hws ?_
    intro c hc
    cases p with
    | nil => exact absurd rfl hp
    | cons a t =>
      simp at hc
      exact hc ▸ digit_not_space (hd a (by simp))
  have htw : (p ++ post).takeWhile Char.isDigit = p := takeWhile_eval hd hpost
  have hdd : (p ++ post).dropWhile Char.isDigit = post := dropWhile_eval hd hpost
  simp only [tryMatch, hdw, htw, hdd]
  simp [hp]

/-- If every element of `A` differs from `x`, an occurrence of `x` in
`A ++ r` lies in `r`. -/
theorem append_eq_split {A r pre z : List Char} {x : Char}
    (hA : ∀ a ∈ A, a ≠ x) (h : A ++ r = pre ++ x :: z) :
    ∃ q, pre = A ++ q ∧ r = q ++ x :: z := by
  induction A generalizing pre with
  | nil => exact ⟨pre, rfl, h⟩
  | cons a A ih =>
    cases pre with
    | nil =>
      simp at h
      exact absurd h.1 (hA a (by simp))
    | cons b pre =>
      simp only [List.cons_append, List.cons.injEq] at h
      obtain ⟨hab, h⟩ := h
      obtain ⟨q, hq1, hq2⟩ := ih (fun a ha => hA a (by simp [ha])) h
      refine ⟨q, ?_, hq2⟩
      rw [hq1, ← hab]
      rfl

theorem stringMk_data (s : String) : (⟨s.data⟩ : String) = s := by
  cases s
  rfl

/-- Declarative semantics of one findall capture: `p` is a digit-run
capture of the regex `PIN:\s*(\d+)` somewhere in `l` — the literal `PIN:`
followed by a whitespace run followed by the nonempty digit run `p`, the
run being maximal (what follows is not a digit).  The whitespace run is
automatically maximal because a digit is not whitespace. -/
def PinCaptureAt (p : String) (l : List Char) : Prop :=
  ∃ pre ws post, l = pre ++ 'P' :: 'I' :: 'N' :: ':' :: (ws ++ p.data ++ post) ∧
    (∀ c ∈ ws, pyIsSpace c = true) ∧ p.data ≠ [] ∧
    (∀ c ∈ p.data, c.isDigit = true) ∧ (∀ c, post.head? = some c → c.isDigit = false)

theorem pinFindAll_sound : ∀ (N : Nat) (l : List Char), l.length ≤ N →
    ∀ p ∈ pinFindAll l, PinCaptureAt p l := by
  intro N
  induction N using Nat.strong_induction_on with
  | _ N ih =>
    intro l hN p hp
    cases hm : tryMatch l with
    | some cr =>
      obtain ⟨cap, rest⟩ := cr
      rw [pinFindAll_eq, hm] at hp
      have hp' : p = cap ∨ p ∈ pinFindAll rest := by simpa using hp
      obtain ⟨ws, digs, hl, hws, hne, hdigs, hcap, hrest⟩ := tryMatch_some_spec hm
      have hlen := tryMatch_some_length hm
      cases hp' with
      | inl hpc =>
        subst hpc
        subst hcap
        exact ⟨[], ws, rest, by simpa using hl, hws, hne, hdigs, hrest⟩
      | inr hpr =>
        obtain ⟨pre', ws', post', heq, hws', hne', hdigs', hpost'⟩ :=
          ih rest.length (by omega) rest (le_refl _) p hpr
        refine ⟨('P' :: 'I' :: 'N' :: ':' :: (ws ++ digs)) ++ pre', ws', post',
          ?_, hws', hne', hdigs', hpost'⟩
        rw [hl, heq]
        simp
    | none =>
      cases l with
      | nil =>
        rw [pinFindAll_eq] at hp
        simp [hm] at hp
      | cons x t =>
        rw [pinFindAll_eq, hm] at hp
        have hp' : p ∈ pinFindAll t := by simpa using hp
        simp only [List.length_cons] at hN
        obtain ⟨pre', ws', post', heq, hws', hne', hdigs', hpost'⟩ :=
          ih t.length (by omega) t (le_refl _) p hp'
        exact ⟨x :: pre', ws', post', by rw [heq]; rfl, hws', hne', hdigs', hpost'⟩

theorem pinFindAll_complete : ∀ (N : Nat) (l : List Char), l.length ≤ N →
    ∀ p, PinCaptureAt p l → p ∈ pinFindAll l := by
  intro N
  induction N using Nat.strong_induction_on with
  | _ N ih =>
    intro l hN p hP
    obtain ⟨pre, ws₂, post₂, hleq, hws₂, hne₂, hdigs₂, hpost₂⟩ := hP
    cases hm : tryMatch l with
    | some cr =>
      obtain ⟨cap, rest⟩ := cr
      rw [pinFindAll_eq, hm]
      have hlen := tryMatch_some_length hm
      obtain ⟨ws, digs, hl, hws, hne, hdigs, hcap, hrest⟩ := tryMatch_some_spec hm
      cases pre with
      | nil =>
        have hcomp : tryMatch l = some (⟨p.data⟩, post₂) := by
          rw [hleq]
          exact tryMatch_complete hws₂ hne₂ hdigs₂ hpost₂
        rw [hm] at hcomp
        have hc := Option.some.inj hcomp
        have hcap2 : cap = ⟨p.data⟩ := congrArg Prod.fst hc
        have : cap = p := by rw [hcap2, stringMk_data]
        simp [this]
      | cons e pre' =>
        have htail : ('I' :: 'N' :: ':' :: (ws ++ digs)) ++ rest =
            pre' ++ 'P' :: ('I' :: 'N' :: ':' :: (ws₂ ++ p.data ++ post₂)) := by
          have h1 : l = 'P' :: (('I' :: 'N' :: ':' :: (ws ++ digs)) ++ rest) := by
            rw [hl]; simp
          have h2 : l = e :: (pre' ++ 'P' :: ('I' :: 'N' :: ':' :: (ws₂ ++ p.data ++ post₂))) := by
            rw [hleq]; rfl
          have := h1.symm.trans h2
          exact (List.cons.inj this).2
        have hA : ∀ a ∈ 'I' :: 'N' :: ':' :: (ws ++ digs), a ≠ 'P' := by
          intro a ha
          simp only [List.mem_cons, List.mem_append] at ha
          rcases ha with h | h | h | h | h
          · subst h; decide
          · subst h; decide
          · subst h; decide
          · exact space_ne_P (hws a h)
          · exact digit_ne_P (hdigs a h)
        obtain ⟨q, hq1, hq2⟩ := append_eq_split hA htail
        have hrest2 : PinCaptureAt p rest :=
          ⟨q, ws₂, post₂, hq2, hws₂, hne₂, hdigs₂, hpost₂⟩
        have := ih rest.length (by omega) rest (le_refl _) p hrest2
        simp [this]
    | none =>
      cases pre with
      | nil =>
        have hcomp : tryMatch l = some (⟨p.data⟩, post₂) := by
          rw [hleq]
          exact tryMatch_complete hws₂ hne₂ hdigs₂ hpost₂
        rw [hm] at hcomp
        exact Option.noConfusion hcomp
      | cons e pre' =>
        cases l with
        | nil => exact absurd hleq (by simp)
        | cons x t =>
          rw [pinFindAll_eq, hm]
          have hxt : x = e ∧ t = pre' ++ 'P' :: 'I' :: 'N' :: ':' :: (ws₂ ++ p.data ++ post₂) := by
            have : x :: t = e :: (pre' ++ 'P' :: 'I' :: 'N' :: ':' :: (ws₂ ++ p.data ++ post₂)) := by
              rw [hleq]; rfl
            exact ⟨(List.cons.inj this).1, (List.cons.inj this).2⟩
          have hPt : PinCaptureAt p t :=
            ⟨pre', ws₂, post₂, hxt.2, hws₂, hne₂, hdigs₂, hpost₂⟩
          simp only [List.length_cons] at hN
          exact ih t.length (by omega) t (le_refl _) p hPt

theorem tryMatch_cons_ne {c : Char} (h : c ≠ 'P') (l : List Char) :
    tryMatch (c :: l) = none := by
  rcases l with _ | ⟨b, _ | ⟨c', _ | ⟨d, r⟩⟩⟩ <;> simp [tryMatch, h]

theorem pinFindAll_cons_ne {c : Char} (h : c ≠ 'P') (l : List Char) :
    pinFindAll (c :: l) = pinFindAll l := by
  rw [pinFindAll_eq, tryMatch_cons_ne h]

/-- The found-log block written by the scanner variant for each logged
candidate (`src/pin_scanner.py` lines 148-149 and 163-164). -/
def pinBlock (d : String) : String :=
  "PIN: " ++ d ++ "\n\n"

/-- Parsing a log that consists exactly of the scanner variant's blocks
recovers exactly the logged pins, in order. -/
theorem pinFindAll_blocks : ∀ ds : List String,
    (∀ d ∈ ds, d.data ≠ [] ∧ ∀ c ∈ d.data, c.isDigit = true) →
    pinFindAll (fileContent (ds.map pinBlock)).data = ds := by
  intro ds
  induction ds with
  | nil => intro _; rfl
  | cons d ds ih =>
    intro hd
    obtain ⟨hne, hdig⟩ := hd d (by simp)
    have hchars : (fileContent ((d :: ds).map pinBlock)).data =
        'P' :: 'I' :: 'N' :: ':' :: ([' '] ++ d.data ++
          ('\n' :: '\n' :: (fileContent (ds.map pinBlock)).data)) := by
      show ((pinBlock d).data ++ ((ds.map pinBlock).map String.data).flatten) = _
      show ("PIN: " ++ d ++ "\n\n").data ++ _ = _
      rw [String.data_append, String.data_append]
      simp [fileContent]
    rw [hchars, pinFindAll_eq, tryMatch_complete (by decide) hne hdig
      (by intro c hc; simp at hc; exact hc ▸ (by decide))]
    show (⟨d.data⟩ : String) ::
        pinFindAll ('\n' :: '\n' :: (fileContent (ds.map pinBlock)).data) = d :: ds
    rw [stringMk_data, pinFindAll_cons_ne (by decide), pinFindAll_cons_ne (by decide),
      ih (fun x hx => hd x (by simp [hx]))]

/-! ### Run characterisation lemmas -/

theorem scanRespCase_probed (ex : String → String) (pin : String) (r : Resp) :
    (scanRespCase ex pin r).probed = true := by
  cases r with
  | netError => rfl
  | ok s t => cases hc : classify "2025" "invalid pin" t <;> simp [scanRespCase, hc]

theorem vipRespCase_probed (ex : String → String) (succ fail pin : String) (r : Resp) :
    (vipRespCase ex succ fail pin r).probed = true := by
  cases r with
  | netError => rfl
  | ok s t =>
    by_cases hs : s ≠ 200
    · by_cases h4 : s = 429 ∨ s = 503 ∨ s = 504 <;> simp [vipRespCase, hs, h4]
    · cases hc : classify succ fail t <;> simp [vipRespCase, hs, hc]

theorem scanStep_skip {resume : List String} {tr : String → Resp}
    {ex : String → String} {pin : String} (h : pin ∈ resume) :
    scanStep resume tr ex pin = ⟨false, [], [], [], 0, []⟩ := by
  simp [scanStep, h]

theorem scanStep_go {resume : List String} {tr : String → Resp}
    {ex : String → String} {pin : String} (h : pin ∉ resume) :
    scanStep resume tr ex pin = scanRespCase ex pin (tr pin) := by
  simp [scanStep, h]

theorem checkPinVip_skip {resume : List String} {tr : String → Resp}
    {ex : String → String} {succ fail pin : String} (h : pin ∈ resume) :
    checkPinVip resume tr ex succ fail pin = ⟨false, [], [], [], 0, [], 0, 0⟩ := by
  simp [checkPinVip, h]

theorem checkPinVip_go {resume : List String} {tr : String → Resp}
    {ex : String → String} {succ fail pin : String} (h : pin ∉ resume) :
    checkPinVip resume tr ex succ fail pin = vipRespCase ex succ fail pin (tr pin) := by
  simp [checkPinVip, h]

/-- In the scanner variant exactly the candidates outside the resume set
are probed, in order. -/
theorem runScannerList_probes (resume : List String) (tr : String → Resp)
    (ex : String → String) : ∀ cs : List String,
    (runScannerList resume tr ex cs).probes =
      cs.filter (fun c => decide (c ∉ resume)) := by
  intro cs
  induction cs with
  | nil => rfl
  | cons c cs ih =>
    simp only [runScannerList, List.filter_cons]
    by_cases h : c ∈ resume
    · rw [scanStep_skip h]
      simp [h, ih]
    · rw [scanStep_go h, scanRespCase_probed]
      simp [h, ih]

/-- In the refactored variant exactly the candidates outside the processed
set are probed, in order. -/
theorem runVipList_probes (resume : List String) (tr : String → Resp)
    (ex : String → String) (succ fail : String) : ∀ cs : List String,
    (runVipList resume tr ex succ fail cs).probes =
      cs.filter (fun c => decide (c ∉ resume)) := by
  intro cs
  induction cs with
  | nil => rfl
  | cons c cs ih =>
    simp only [runVipList, List.filter_cons]
    by_cases h : c ∈ resume
    · rw [checkPinVip_skip h]
      simp [h, ih]
    · rw [checkPinVip_go h, vipRespCase_probed]
      simp [h, ih]

/-- The refactored variant's run loop sleeps the inter-request delay once
per candidate, whether or not the candidate was skipped. -/
theorem runVipList_delays (resume : List String) (tr : String → Resp)
    (ex : String → String) (succ fail : String) : ∀ cs : List String,
    (runVipList resume tr ex succ fail cs).delays = cs.length := by
  intro cs
  induction cs with
  | nil => rfl
  | cons c cs ih =>
    simp only [runVipList, List.length_cons]
    omega

/-- The only sleep the scanner variant's loop ever performs is the fixed
10 second network-error backoff. -/
theorem runScannerList_sleeps (resume : List String) (tr : String → Resp)
    (ex : String → String) : ∀ cs : List String,
    ∀ s ∈ (runScannerList resume tr ex cs).sleeps, s = 10 := by
  intro cs
  induction cs with
  | nil => intro s hs; simp [runScannerList] at hs
  | cons c cs ih =>
    intro s hs
    simp only [runScannerList, List.mem_append] at hs
    rcases hs with hs | hs
    · by_cases h : c ∈ resume
      · rw [scanStep_skip h] at hs
        simp at hs
      · rw [scanStep_go h] at hs
        cases hr : tr c with
        | netError => rw [hr] at hs; simp [scanRespCase] at hs; exact hs
        | ok st t =>
          rw [hr] at hs
          cases hc : classify "2025" "invalid pin" t <;>
            simp [scanRespCase, hc] at hs
    · exact ih s hs

/-- Whether the scanner variant appends a `PIN:` block to the found-log
for a given candidate: it must not be skipped and its response must
classify as a match or a potential (`src/pin_scanner.py` lines 140-164). -/
def loggedB (resume : List String) (tr : String → Resp) (c : String) : Bool :=
  decide (c ∉ resume) &&
    (match tr c with
     | .netError => false
     | .ok _ text => !(classify "2025" "invalid pin" text == .rejected))

/-- The scanner variant's found-log appends are exactly one `pinBlock` per
logged candidate, in sweep order. -/
theorem runScannerList_found (resume : List String) (tr : String → Resp)
    (ex : String → String) : ∀ cs : List String,
    (runScannerList resume tr ex cs).found =
      (cs.filter (loggedB resume tr)).map pinBlock := by
  intro cs
  induction cs with
  | nil => rfl
  | cons c cs ih =>
    simp only [runScannerList, List.filter_cons]
    by_cases h : c ∈ resume
    · rw [scanStep_skip h]
      simp [loggedB, h, ih]
    · rw [scanStep_go h]
      cases hr : tr c with
      | netError => simp [scanRespCase, loggedB, h, hr, ih]
      | ok st t =>
        cases hc : classify "2025" "invalid pin" t <;>
          simp [scanRespCase, loggedB, h, hr, hc, ih, pinBlock]

/-! ### Concrete transports and collaborators used by the witnesses -/

/-- Identity content extractor (any total collaborator works). -/
def exId : String → String := fun s => s

/-- Transport returning the rejection body for every candidate. -/
def trInvalid : String → Resp := fun _ => .ok 200 "invalid pin"

/-- Transport returning an ambiguous body for every candidate. -/
def trHello : String → Resp := fun _ => .ok 200 "hello"

/-- Transport returning status 404 with an ambiguous body. -/
def tr404 : String → Resp := fun _ => .ok 404 "hello"

/-- Transport returning the rate-limit status 429. -/
def tr429 : String → Resp := fun _ => .ok 429 "x"

/-- Transport failing with a connection error exactly for candidate 1. -/
def trErrOne : String → Resp :=
  fun q => if q = "1" then .netError else .ok 200 "invalid pin"

/-! ### Claims -/

/-- C2: for every response text, classification is decided in priority
order: text containing the success indicator (case-sensitive) is a Match;
otherwise, if the lower-cased text does not contain the lower-cased
failure indicator it is a Potential; otherwise it is Rejected. -/
theorem c2_classify_priority (succ fail text : String) :
    (strIn succ text = true → classify succ fail text = .matched) ∧
    (strIn succ text = false → strIn (lowerStr fail) (lowerStr text) = false →
      classify succ fail text = .potential) ∧
    (strIn succ text = false → strIn (lowerStr fail) (lowerStr text) = true →
      classify succ fail text = .rejected) := by
  refine ⟨fun h1 => ?_, fun h1 h2 => ?_, fun h1 h2 => ?_⟩
  · simp [classify, h1]
  · simp [classify, h1, h2]
  · simp [classify, h1, h2]

/-- Witness for C2 at the default configuration: a body containing both
indicators is a Match (priority), a body with neither is a Potential, and
a body with only the failure indicator in different letter case is
Rejected. -/
theorem c2_witness :
    classify "2025" "invalid pin" "ab2025cd Invalid PIN" = .matched ∧
    classify "2025" "invalid pin" "hello" = .potential ∧
    classify "2025" "invalid pin" "Invalid PIN!" = .rejected :=
  ⟨(c2_classify_priority "2025" "invalid pin" "ab2025cd Invalid PIN").1 (by decide),
   (c2_classify_priority "2025" "invalid pin" "hello").2.1 (by decide) (by decide),
   (c2_classify_priority "2025" "invalid pin" "Invalid PIN!").2.2 (by decide) (by decide)⟩

/-- C3: the resume-set loader returns the empty set for a missing file and
for an unreadable file (after a warning), and otherwise returns exactly
the set of digit-run captures of the pattern `PIN:` followed by whitespace
and one-or-more digits over the entire found-log content, whatever the
surrounding free text. -/
theorem c3_load_resume_set :
    loadResume .missing = [] ∧ loadResume .unreadable = [] ∧
    ∀ (s : String) (p : String),
      p ∈ loadResume (.content s) ↔ PinCaptureAt p s.data := by
  refine ⟨rfl, rfl, fun s p => ?_⟩
  constructor
  · exact fun h => pinFindAll_sound s.data.length s.data (le_refl _) p h
  · exact fun h => pinFindAll_complete s.data.length s.data (le_refl _) p h

/-- C10: in the scanner variant, loading the resume set deletes the CI
scratch file whenever it exists, so afterwards that file is always absent,
while the found-log and potential-log are untouched by the load. -/
theorem c10_ci_scratch_frame (fs : ScannerFs) :
    (getAlreadyFoundPins fs).2.ciFile = none ∧
    (getAlreadyFoundPins fs).2.foundLog = fs.foundLog ∧
    (getAlreadyFoundPins fs).2.silentLog = fs.silentLog ∧
    (getAlreadyFoundPins fs).1 = loadResume fs.foundLog := by
  obtain ⟨ci, fl, sl⟩ := fs
  cases ci <;> simp [getAlreadyFoundPins]

/-- C1: in both variants, every candidate of the ResumeSet is handled
without a network probe and without any log append, and the number of
probe calls of a run is `end - start + 1` minus the number of in-range
candidates that are in the ResumeSet. -/
theorem c1_resume_skip (resume : List String) (tr : String → Resp)
    (ex : String → String) (succ fail : String) (start endPin : Nat) :
    (∀ c ∈ resume,
      scanStep resume tr ex c = ⟨false, [], [], [], 0, []⟩ ∧
      checkPinVip resume tr ex succ fail c = ⟨false, [], [], [], 0, [], 0, 0⟩ ∧
      c ∉ (runScannerList resume tr ex (pyCandidates start endPin)).probes ∧
      c ∉ (runVip resume tr ex succ fail start endPin).probes) ∧
    (runScannerList resume tr ex (pyCandidates start endPin)).probes.length =
      (endPin + 1 - start) -
        ((pyCandidates start endPin).filter (fun c => decide (c ∈ resume))).length ∧
    (runVip resume tr ex succ fail start endPin).probes.length =
      (endPin + 1 - start) -
        ((pyCandidates start endPin).filter (fun c => decide (c ∈ resume))).length := by
  have hlen : (pyCandidates start endPin).length = endPin + 1 - start := by
    simp [pyCandidates, pyRange]
  have hsplit := List.length_eq_length_filter_add
    (l := pyCandidates start endPin) (fun c => decide (c ∈ resume))
  have hfe : (pyCandidates start endPin).filter (fun c => decide (c ∉ resume)) =
      (pyCandidates start endPin).filter (fun c => !decide (c ∈ resume)) := by
    simp only [decide_not]
  refine ⟨fun c hc => ⟨scanStep_skip hc, checkPinVip_skip hc, ?_, ?_⟩, ?_, ?_⟩
  · rw [runScannerList_probes]
    intro hmem
    have := List.of_mem_filter hmem
    simp at this
    exact this hc
  · rw [runVip, runVipList_probes]
    intro hmem
    have := List.of_mem_filter hmem
    simp at this
    exact this hc
  · rw [runScannerList_probes, hfe]
    omega
  · rw [runVip, runVipList_probes, hfe]
    omega

/-- Witness for C1: ResumeSet `{1}` over range 0..2 — candidate 1 is
skipped with no probe and no append in both variants, and exactly two
probes happen. -/
theorem c1_witness :
    scanStep ["1"] trInvalid exId "1" = ⟨false, [], [], [], 0, []⟩ ∧
    checkPinVip ["1"] trInvalid exId "2025" "invalid pin" "1" =
      ⟨false, [], [], [], 0, [], 0, 0⟩ ∧
    "1" ∉ (runScannerList ["1"] trInvalid exId (pyCandidates 0 2)).probes ∧
    "1" ∉ (runVip ["1"] trInvalid exId "2025" "invalid pin" 0 2).probes ∧
    (runScannerList ["1"] trInvalid exId (pyCandidates 0 2)).probes.length =
      (2 + 1 - 0) -
        ((pyCandidates 0 2).filter (fun c => decide (c ∈ ["1"]))).length := by
  have h := c1_resume_skip ["1"] trInvalid exId "2025" "invalid pin" 0 2
  obtain ⟨hs, hc, hn1, hn2⟩ := h.1 "1" (by simp)
  exact ⟨hs, hc, hn1, hn2, h.2.1⟩

/-- C7 counterexample: with ResumeSet `{0}` and range 0..0 the refactored
variant issues no probe at all, yet still sleeps the inter-request delay
once — a candidate skipped via ResumeSet does incur the delay. -/
theorem c7_counterexample :
    (runVip ["0"] trInvalid exId "2025" "invalid pin" 0 0).probes = [] ∧
    (runVip ["0"] trInvalid exId "2025" "invalid pin" 0 0).delays = 1 := by
  constructor <;> decide

/-- C7 amended: the refactored variant sleeps the fixed inter-request
delay once per candidate of the range, after handling it, regardless of
outcome and also for candidates skipped via ResumeSet; the scanner variant
never sleeps an inter-request delay (its only sleeps are the 10 second
network-error backoffs). -/
theorem c7_amended (resume : List String) (tr : String → Resp)
    (ex : String → String) (succ fail : String) (start endPin : Nat) :
    (runVip resume tr ex succ fail start endPin).delays = endPin + 1 - start ∧
    (runScannerList resume tr ex (pyCandidates start endPin)).sleeps.all
      (fun s => s == 10) = true := by
  constructor
  · rw [runVip, runVipList_delays]
    simp [pyCandidates, pyRange]
  · rw [List.all_eq_true]
    intro s hs
    have := runScannerList_sleeps resume tr ex (pyCandidates start endPin) s hs
    simp [this]

/-- C9 counterexample: the configuration start_pin 1, end_pin 0 (an
invalid range) is not rejected at startup: `main` builds the scanner and
completes a run that probes no candidate, instead of failing fatally. -/
theorem c9_counterexample :
    mainVip .missing trInvalid exId "2025" "invalid pin" 1 0 ≠ .fatalConfig ∧
    (runVip (loadResume .missing) trInvalid exId "2025" "invalid pin" 1 0).probes
      = [] :=
  ⟨fun h => VipOutcome.noConfusion h, by decide⟩

/-- C9 amended: no startup validation exists; a configuration whose
start_pin exceeds its end_pin yields an empty sweep — the run completes
normally, probing no candidate, finding no match and writing nothing. -/
theorem c9_amended (foundLog : FoundState) (tr : String → Resp)
    (ex : String → String) (succ fail : String) (start endPin : Nat)
    (h : endPin < start) :
    mainVip foundLog tr ex succ fail start endPin =
      .done (runVip (loadResume foundLog) tr ex succ fail start endPin) ∧
    (runVip (loadResume foundLog) tr ex succ fail start endPin).probes = [] ∧
    (runVip (loadResume foundLog) tr ex succ fail start endPin).matchCount = 0 ∧
    (runVip (loadResume foundLog) tr ex succ fail start endPin).found = [] := by
  have hcand : pyCandidates start endPin = [] := by
    have : endPin + 1 - start = 0 := by omega
    simp [pyCandidates, pyRange, this]
  refine ⟨rfl, ?_, ?_, ?_⟩ <;> simp [runVip, hcand, runVipList]

/-- Witness for C9 (amended) at start_pin 1, end_pin 0. -/
theorem c9_witness :
    mainVip .missing trInvalid exId "2025" "invalid pin" 1 0 =
      .done (runVip (loadResume .missing) trInvalid exId "2025" "invalid pin" 1 0) ∧
    (runVip (loadResume .missing) trInvalid exId "2025" "invalid pin" 1 0).probes = [] ∧
    (runVip (loadResume .missing) trInvalid exId "2025" "invalid pin" 1 0).matchCount = 0 := by
  have h := c9_amended .missing trInvalid exId "2025" "invalid pin" 1 0 (by decide)
  exact ⟨h.1, h.2.1, h.2.2.1⟩

/-- C8 counterexample: the scanner variant never inspects the status code;
a 404 response whose body contains neither indicator is still persisted
(a `PIN:` block is appended to the found-log), so a non-2xx status is not
treated as Rejected there and no warning is logged. -/
theorem c8_counterexample :
    ¬ ((scanStep [] tr404 exId "7").found = [] ∧
       (scanStep [] tr404 exId "7").ci = [] ∧
       (scanStep [] tr404 exId "7").silent = []) := by
  decide

/-- C8 amended: in the refactored variant every response with a status
other than 200 — in particular every non-2xx status — is treated as
rejected: nothing is persisted for the candidate, at least one warning is
logged, and the statuses 429, 503 and 504 additionally sleep a fixed 60
seconds before returning; the scanner variant ignores the status code
entirely and classifies the body text whatever the status. -/
theorem c8_amended (resume : List String) (tr : String → Resp)
    (ex : String → String) (succ fail pin : String) (status : Nat)
    (text : String) (hskip : pin ∉ resume) (hresp : tr pin = .ok status text)
    (hnon : status ≠ 200) :
    (checkPinVip resume tr ex succ fail pin).found = [] ∧
    (checkPinVip resume tr ex succ fail pin).ci = [] ∧
    (checkPinVip resume tr ex succ fail pin).potential = [] ∧
    (checkPinVip resume tr ex succ fail pin).matchCount = 0 ∧
    1 ≤ (checkPinVip resume tr ex succ fail pin).warnings ∧
    ((status = 429 ∨ status = 503 ∨ status = 504) →
      (checkPinVip resume tr ex succ fail pin).sleeps = [60]) ∧
    (¬ (status = 429 ∨ status = 503 ∨ status = 504) →
      (checkPinVip resume tr ex succ fail pin).sleeps = []) ∧
    (∀ (s₁ s₂ : Nat) (t : String),
      scanRespCase ex pin (.ok s₁ t) = scanRespCase ex pin (.ok s₂ t)) := by
  rw [checkPinVip_go hskip, hresp]
  by_cases h4 : status = 429 ∨ status = 503 ∨ status = 504 <;>
    refine ⟨?_, ?_, ?_, ?_, ?_, ?_, ?_, fun s₁ s₂ t => rfl⟩ <;>
    simp [vipRespCase, hnon, h4]

/-- Witness for C8 (amended) at status 429: nothing persisted, warnings
logged, the 60 second cooldown sleep, and status-irrelevance of the
scanner variant at statuses 404 and 500. -/
theorem c8_witness :
    (checkPinVip [] tr429 exId "2025" "invalid pin" "3").found = [] ∧
    (checkPinVip [] tr429 exId "2025" "invalid pin" "3").ci = [] ∧
    (checkPinVip [] tr429 exId "2025" "invalid pin" "3").potential = [] ∧
    (checkPinVip [] tr429 exId "2025" "invalid pin" "3").matchCount = 0 ∧
    1 ≤ (checkPinVip [] tr429 exId "2025" "invalid pin" "3").warnings ∧
    (checkPinVip [] tr429 exId "2025" "invalid pin" "3").sleeps = [60] ∧
    scanRespCase exId "3" (.ok 404 "q") = scanRespCase exId "3" (.ok 500 "q") := by
  have h := c8_amended [] tr429 exId "2025" "invalid pin" "3" 429 "x"
    (by simp) rfl (by decide)
  exact ⟨h.1, h.2.1, h.2.2.1, h.2.2.2.1, h.2.2.2.2.1,
    h.2.2.2.2.2.1 (by decide), h.2.2.2.2.2.2.2 404 500 "q"⟩

/-- C6 counterexample: in the scanner variant a Potential response for
candidate 7 appends nothing to the potential log — instead `PIN: 7\n\n`
goes to the found-log — refuting the claim that a Potential candidate's
bare string is appended to the secondary log and nothing to the found-log. -/
theorem c6_counterexample :
    ¬ ((scanStep [] trHello exId "7").found = [] ∧
       (scanStep [] trHello exId "7").silent = ["7\n"]) := by
  decide

/-- C6 amended: in the refactored variant a Potential candidate appends
exactly the bare candidate string plus newline to the potential log and
nothing to the found-log or the CI file; in the scanner variant
(pin_scanner.py) a Potential candidate instead appends `PIN: <pin>\n\n` to
the found-log and nothing to the potential log, so it does enter a later
run's ResumeSet. -/
theorem c6_amended (resume : List String) (tr : String → Resp)
    (ex : String → String) (succ fail pin text : String) (status : Nat)
    (hskip : pin ∉ resume) (hresp : tr pin = .ok status text) :
    (status = 200 → classify succ fail text = .potential →
      (checkPinVip resume tr ex succ fail pin).potential = [pin ++ "\n"] ∧
      (checkPinVip resume tr ex succ fail pin).found = [] ∧
      (checkPinVip resume tr ex succ fail pin).ci = []) ∧
    (classify "2025" "invalid pin" text = .potential →
      (scanStep resume tr ex pin).found = ["PIN: " ++ pin ++ "\n\n"] ∧
      (scanStep resume tr ex pin).silent = [] ∧
      (pin.data ≠ [] → (∀ c ∈ pin.data, c.isDigit = true) →
        pin ∈ loadResume (.content
          (fileContent (scanStep resume tr ex pin).found)))) := by
  constructor
  · intro h200 hcl
    subst h200
    rw [checkPinVip_go hskip, hresp]
    refine ⟨?_, ?_, ?_⟩ <;> simp [vipRespCase, hcl]
  · intro hcl
    rw [scanStep_go hskip, hresp]
    have hfound : (scanRespCase ex pin (Resp.ok status text)).found =
        ["PIN: " ++ pin ++ "\n\n"] := by
      simp [scanRespCase, hcl]
    refine ⟨hfound, by simp [scanRespCase, hcl], ?_⟩
    intro hne hdig
    rw [hfound]
    show pin ∈ pinFindAll (fileContent ["PIN: " ++ pin ++ "\n\n"]).data
    have hb : pinFindAll (fileContent ([pin].map pinBlock)).data = [pin] :=
      pinFindAll_blocks [pin] (by intro d hd; simp at hd; subst hd; exact ⟨hne, hdig⟩)
    simp only [List.map_cons, List.map_nil] at hb
    rw [show ("PIN: " ++ pin ++ "\n\n") = pinBlock pin from rfl, hb]
    simp

/-- Witness for C6 (amended): response body `hello` classifies Potential;
refactored variant logs `7\n` to the potential log only, scanner variant
logs `PIN: 7\n\n` to the found-log only and 7 is parsed back into the
resume set of a later run. -/
theorem c6_witness :
    (checkPinVip [] trHello exId "2025" "invalid pin" "7").potential = ["7\n"] ∧
    (checkPinVip [] trHello exId "2025" "invalid pin" "7").found = [] ∧
    (scanStep [] trHello exId "7").found = ["PIN: " ++ "7" ++ "\n\n"] ∧
    (scanStep [] trHello exId "7").silent = [] ∧
    "7" ∈ loadResume (.content (fileContent (scanStep [] trHello exId "7").found)) := by
  have h := c6_amended [] trHello exId "2025" "invalid pin" "7" "hello" 200
    (by simp) rfl
  obtain ⟨h1, h2, h3⟩ := h.1 rfl (by decide)
  obtain ⟨h4, h5, h6⟩ := h.2 (by decide)
  exact ⟨h1, h2, h4, h5, h6 (by decide) (by decide)⟩

/-- C5: the claim's exit behavior fails on the code: a run in which no
match is found never re-creates the CI scratch file (deleted at startup),
so the final unguarded `open(CI_OUTPUT_FILE, "r")` raises
`FileNotFoundError` and the process exits nonzero instead of exiting 0.
Evaluated at two zero-match inputs: an empty state over range 0..0 with
every response Rejected, and a state with an existing log and stale CI
file over range 0..5. -/
theorem c5_zero_match_crash :
    scanPins ⟨none, .missing, none⟩ trInvalid exId 0 0 =
      .crashedMissingCi 0 ∧
    scanPins ⟨some "stale", .content "PIN: 3\n\n", none⟩ trInvalid exId 0 5 =
      .crashedMissingCi 0 := by
  constructor <;> decide

/-- C4: a candidate whose probe raises a transport failure causes a fixed
10 second backoff and nothing else: no append to any log, no match count,
and the sweep still probes every other eligible candidate exactly once
(the failed candidate itself is probed exactly once — no retry within the
run).  Starting the next run from a found-log holding exactly this run's
appends, the failed candidate is absent from the parsed ResumeSet and is
probed again. -/
theorem c4_transient_error (resume : List String) (tr : String → Resp)
    (ex : String → String) (succ fail : String) (start endPin n : Nat)
    (hmem : n ∈ pyRange start endPin) (hres : toString n ∉ resume)
    (herr : tr (toString n) = .netError) :
    scanStep resume tr ex (toString n) = ⟨true, [], [], [], 0, [10]⟩ ∧
    checkPinVip resume tr ex succ fail (toString n) =
      ⟨true, [], [], [], 0, [10], 0, 1⟩ ∧
    (runScannerList resume tr ex (pyCandidates start endPin)).probes.count
      (toString n) = 1 ∧
    (∀ m, m ∈ pyRange start endPin → toString m ∉ resume →
      toString m ∈ (runScannerList resume tr ex (pyCandidates start endPin)).probes) ∧
    toString n ∉ loadResume (.content (fileContent
      (runScannerList resume tr ex (pyCandidates start endPin)).found)) ∧
    toString n ∈ (runScannerList
      (loadResume (.content (fileContent
        (runScannerList resume tr ex (pyCandidates start endPin)).found)))
      tr ex (pyCandidates start endPin)).probes := by
  have hnodup : (pyCandidates start endPin).Nodup :=
    List.Nodup.map (fun a b hab => natStr_inj hab) (List.nodup_range' _ _)
  have hmemc : toString n ∈ pyCandidates start endPin :=
    List.mem_map_of_mem _ hmem
  have hmemf : toString n ∈ (pyCandidates start endPin).filter
      (fun c => decide (c ∉ resume)) :=
    List.mem_filter.2 ⟨hmemc, by simp [hres]⟩
  have hfound := runScannerList_found resume tr ex (pyCandidates start endPin)
  have hds : ∀ d ∈ (pyCandidates start endPin).filter (loggedB resume tr),
      d.data ≠ [] ∧ ∀ c ∈ d.data, c.isDigit = true := by
    intro d hd
    have hdc := List.mem_of_mem_filter hd
    obtain ⟨m, -, rfl⟩ := List.mem_map.1 hdc
    exact ⟨toString_nat_ne_nil m, toString_nat_digits m⟩
  have hparse : loadResume (.content (fileContent
      (runScannerList resume tr ex (pyCandidates start endPin)).found)) =
      (pyCandidates start endPin).filter (loggedB resume tr) := by
    rw [hfound]
    exact pinFindAll_blocks _ hds
  have hnot : toString n ∉
      (pyCandidates start endPin).filter (loggedB resume tr) := by
    intro hmem2
    have hlog := List.of_mem_filter hmem2
    simp [loggedB, herr] at hlog
  refine ⟨?_, ?_, ?_, ?_, ?_, ?_⟩
  · rw [scanStep_go hres, herr]
    rfl
  · rw [checkPinVip_go hres, herr]
    rfl
  · rw [runScannerList_probes]
    exact List.count_eq_one_of_mem (List.Nodup.filter _ hnodup) hmemf
  · intro m hm hmr
    rw [runScannerList_probes]
    exact List.mem_filter.2 ⟨List.mem_map_of_mem _ hm, by simp [hmr]⟩
  · rw [hparse]
    exact hnot
  · rw [runScannerList_probes]
    refine List.mem_filter.2 ⟨hmemc, ?_⟩
    rw [hparse]
    simp [hnot]

/-- Witness for C4: transport failing exactly for candidate 1 over range
0..2 and an empty resume set. -/
theorem c4_witness :
    scanStep [] trErrOne exId (toString 1) = ⟨true, [], [], [], 0, [10]⟩ ∧
    checkPinVip [] trErrOne exId "2025" "invalid pin" (toString 1) =
      ⟨true, [], [], [], 0, [10], 0, 1⟩ ∧
    (runScannerList [] trErrOne exId (pyCandidates 0 2)).probes.count
      (toString 1) = 1 ∧
    toString 2 ∈ (runScannerList [] trErrOne exId (pyCandidates 0 2)).probes ∧
    toString 1 ∉ loadResume (.content (fileContent
      (runScannerList [] trErrOne exId (pyCandidates 0 2)).found)) ∧
    toString 1 ∈ (runScannerList
      (loadResume (.content (fileContent
        (runScannerList [] trErrOne exId (pyCandidates 0 2)).found)))
      trErrOne exId (pyCandidates 0 2)).probes := by
  have h := c4_transient_error [] trErrOne exId "2025" "invalid pin" 0 2 1
    (by decide) (by simp) (by decide)
  exact ⟨h.1, h.2.1, h.2.2.1, h.2.2.2.1 2 (by decide) (by simp),
    h.2.2.2.2.1, h.2.2.2.2.2⟩
